import Mathlib

/-!
Verification of the parity core spec against a shallow embedding of the
source.  Addresses, hashes and 256-bit words are modelled as `Nat`
(claims under scrutiny involve no overflow behaviour); hash maps are
modelled as functions into `Option` (state cache) or association lists
(transaction queue); the backing trie at the current root is a function
from addresses to accounts.
-/

namespace Parity

/-- Modelled from the spec: `Account` (src/ethcore/src/account.rs is not in
the sources).  Per §3/§4.2 of the spec an account owns balance, nonce, a
storage overlay (key/value are 256-bit words) and optional code. -/
structure Account where
  balance : Nat
  nonce : Nat
  storage : Nat → Nat
  code : Option (List Nat)

/-- Modelled from the spec: `Account::new_basic(balance, nonce)`; a plain
account with no code and empty storage. -/
def Account.new_basic (balance nonce : Nat) : Account :=
  { balance := balance, nonce := nonce, storage := fun _ => 0, code := none }

/-- Modelled from the spec: `Account::new_contract(balance, nonce)`; the
code is reset, ready for `init_code` (state.rs line 138). -/
def Account.new_contract (balance nonce : Nat) : Account :=
  { balance := balance, nonce := nonce, storage := fun _ => 0, code := none }

/-- Embedding of `State` (src/ethcore/src/state.rs lines 33-39).
`trie` is the account trie of the backing `JournalDB` at the current
`root`; `trieRoot` abstracts the Merkle hashing of the trie contents (it
is carried as data and never modified).  `cache` maps an address to
`none` (key absent from the `HashMap`) or `some v` where `v : Option
Account` is the cached entry (`some none` = known to be absent).  Each
snapshot frame maps a recorded address to the prior cache binding. -/
structure State where
  trie : Nat → Option Account
  root : Nat
  trieRoot : (Nat → Option Account) → Nat
  cache : Nat → Option (Option Account)
  snapshots : List (Nat → Option (Option (Option Account)))
  account_start_nonce : Nat

/-- `State::snapshot` (state.rs lines 77-79): push an empty scope. -/
def State.snapshot (s : State) : State :=
  { s with snapshots := (fun _ => none) :: s.snapshots }

/-- `State::clear_snapshot` (state.rs lines 82-92): pop the top scope and
merge it into the one beneath (`or_insert`: an entry of the outer scope
wins), or discard it at the bottom of the stack. -/
def State.clear_snapshot (s : State) : State :=
  match s.snapshots with
  | [] => s
  | t :: rest =>
    match rest with
    | [] => { s with snapshots := [] }
    | p :: rest2 =>
      { s with snapshots :=
          (fun k => match p k with
            | some v => some v
            | none => t k) :: rest2 }

/-- `State::revert_snapshot` (state.rs lines 95-108): pop the top scope;
every recorded key is restored to its recorded prior binding (`some v` =
reinsert `v`, `none` = remove the key from the cache). -/
def State.revert_snapshot (s : State) : State :=
  match s.snapshots with
  | [] => s
  | t :: rest =>
    { s with snapshots := rest,
             cache := fun k =>
               match t k with
               | some w => w
               | none => s.cache k }

/-- `State::insert_cache` (state.rs lines 110-118): if there is a top
snapshot scope that does not yet record this address, record the prior
cache binding there; in every case overwrite the cache entry. -/
def State.insert_cache (s : State) (a : Nat) (account : Option Account) : State :=
  match s.snapshots with
  | t :: rest =>
    match t a with
    | none =>
      { s with snapshots := (fun k => if k = a then some (s.cache a) else t k) :: rest,
               cache := fun k => if k = a then some account else s.cache k }
    | some _ =>
      { s with cache := fun k => if k = a then some account else s.cache k }
  | [] =>
    { s with cache := fun k => if k = a then some account else s.cache k }

/-- `State::note_cache` (state.rs lines 120-126): record the prior cache
binding in the top scope if not already recorded; the cache is untouched. -/
def State.note_cache (s : State) (a : Nat) : State :=
  match s.snapshots with
  | t :: rest =>
    match t a with
    | none =>
      { s with snapshots := (fun k => if k = a then some (s.cache a) else t k) :: rest }
    | some _ => s
  | [] => s

/-- `State::require_or_from` (state.rs lines 305-325): pull the account
into the cache (through `insert_cache` when absent, else `note_cache`),
replace a cached `None` by `default`, and apply the caller's mutation `f`
to the resulting account (the callers of `require`/`require_or_from`
mutate the returned `&mut Account`; `not_default` is a no-op at every
call site in the sources). -/
def State.require_or_from (s : State) (a : Nat) (default : Account)
    (f : Account → Account) : State :=
  let s1 := match s.cache a with
    | none => s.insert_cache a (s.trie a)
    | some _ => s.note_cache a
  let cur : Option Account := match s1.cache a with
    | some v => v
    | none => none
  let acc : Account := match cur with
    | none => default
    | some existing => existing
  { s1 with cache := fun k => if k = a then some (some (f acc)) else s1.cache k }

/-- `State::require` (state.rs lines 299-301) followed by the caller's
mutation of the returned account. -/
def State.require_upd (s : State) (a : Nat) (f : Account → Account) : State :=
  s.require_or_from a (Account.new_basic 0 s.account_start_nonce) f

/-- `State::add_balance` (state.rs lines 175-179). -/
def State.add_balance (s : State) (a : Nat) (incr : Nat) : State :=
  s.require_upd a (fun ac => { ac with balance := ac.balance + incr })

/-- `State::sub_balance` (state.rs lines 182-186); `Nat` subtraction
truncates, which coincides with U256 behaviour on the in-range inputs. -/
def State.sub_balance (s : State) (a : Nat) (decr : Nat) : State :=
  s.require_upd a (fun ac => { ac with balance := ac.balance - decr })

/-- `State::transfer_balance` (state.rs lines 189-192). -/
def State.transfer_balance (s : State) (f t : Nat) (by_ : Nat) : State :=
  (s.sub_balance f by_).add_balance t by_

/-- `State::inc_nonce` (state.rs lines 195-197). -/
def State.inc_nonce (s : State) (a : Nat) : State :=
  s.require_upd a (fun ac => { ac with nonce := ac.nonce + 1 })

/-- `State::set_storage` (state.rs lines 200-202). -/
def State.set_storage (s : State) (a : Nat) (key value : Nat) : State :=
  s.require_upd a (fun ac => { ac with storage := fun k2 => if k2 = key then value else ac.storage k2 })

/-- `State::new_contract` (state.rs lines 140-142). -/
def State.new_contract (s : State) (contract : Nat) (balance : Nat) : State :=
  s.insert_cache contract (some (Account.new_contract balance s.account_start_nonce))

/-- `State::kill_account` (state.rs lines 145-147). -/
def State.kill_account (s : State) (a : Nat) : State :=
  s.insert_cache a none

/-- `State::init_code` (state.rs lines 206-208): `require_or_from` with a
fresh contract account as default, then set the code. -/
def State.init_code (s : State) (a : Nat) (code : List Nat) : State :=
  s.require_or_from a (Account.new_contract 0 s.account_start_nonce)
    (fun ac => { ac with code := some code })

/-- The value returned by `State::get` (state.rs lines 285-296): the
cached entry when the key is present, otherwise the trie lookup. -/
def State.getAccount (s : State) (a : Nat) : Option Account :=
  match s.cache a with
  | some v => v
  | none => s.trie a

/-- `State::exists` (state.rs lines 150-152): the cache entry (defaulted
to `None` when the key is absent) is a live account, or the backing trie
contains the address. -/
def State.existsAccount (s : State) (a : Nat) : Bool :=
  (match s.cache a with
   | some v => v.isSome
   | none => false) || (s.trie a).isSome

/-- `State::balance` (state.rs lines 155-157). -/
def State.balance (s : State) (a : Nat) : Nat :=
  match s.getAccount a with
  | some ac => ac.balance
  | none => 0

/-- `State::nonce` (state.rs lines 160-162). -/
def State.nonce (s : State) (a : Nat) : Nat :=
  match s.getAccount a with
  | some ac => ac.nonce
  | none => 0

/-- `State::storage_at` (state.rs lines 165-167). -/
def State.storage_at (s : State) (a : Nat) (key : Nat) : Nat :=
  match s.getAccount a with
  | some ac => ac.storage key
  | none => 0

/-- `State::code` (state.rs lines 170-172). -/
def State.codeOf (s : State) (a : Nat) : Option (List Nat) :=
  match s.getAccount a with
  | some ac => ac.code
  | none => none

/-- `State::commit` via `commit_into` (state.rs lines 228-257): every
cached `Some(account)` is inserted into the account trie, every cached
`None` is removed from it; the root becomes the root of the new trie.
The source asserts that the snapshot stack is empty at this point. -/
def State.commit (s : State) : State :=
  let newTrie : Nat → Option Account := fun k =>
    match s.cache k with
    | some v => v
    | none => s.trie k
  { s with trie := newTrie, root := s.trieRoot newTrie }

/-- The eight account mutations named by the spec's snapshot law. -/
inductive Mutation where
  | add_balance (a v : Nat)
  | sub_balance (a v : Nat)
  | transfer_balance (f t v : Nat)
  | inc_nonce (a : Nat)
  | set_storage (a k v : Nat)
  | new_contract (a bal : Nat)
  | init_code (a : Nat) (code : List Nat)
  | kill_account (a : Nat)

/-- Apply one mutation through the corresponding `State` method. -/
def State.applyMutation (s : State) : Mutation → State
  | .add_balance a v => s.add_balance a v
  | .sub_balance a v => s.sub_balance a v
  | .transfer_balance f t v => s.transfer_balance f t v
  | .inc_nonce a => s.inc_nonce a
  | .set_storage a k v => s.set_storage a k v
  | .new_contract a bal => s.new_contract a bal
  | .init_code a code => s.init_code a code
  | .kill_account a => s.kill_account a

/-- Apply a sequence of mutations in order. -/
def State.applyMutations (s : State) (ms : List Mutation) : State :=
  ms.foldl State.applyMutation s

/-- Invariant linking a state `s` during a snapshot scope back to the
state `s0` at the time of `snapshot()`: all non-cache data is unchanged,
the snapshot stack is the scope frame `t` on top of `s0`'s stack, and the
frame is a faithful record: an unrecorded key has an unchanged cache
binding, and a recorded key's record is its binding at snapshot time. -/
def FrameOk (s0 s : State) : Prop :=
  s.trie = s0.trie ∧ s.root = s0.root ∧ s.trieRoot = s0.trieRoot ∧
  s.account_start_nonce = s0.account_start_nonce ∧
  ∃ t, s.snapshots = t :: s0.snapshots ∧
    ∀ k, (t k = none → s.cache k = s0.cache k) ∧ (∀ v, t k = some v → v = s0.cache k)

/-- The top snapshot frame exists and records address `a`. -/
def TopRecorded (s : State) (a : Nat) : Prop :=
  ∃ t rest, s.snapshots = t :: rest ∧ t a ≠ none

theorem frameOk_snapshot (s0 : State) : FrameOk s0 s0.snapshot := by
  refine ⟨rfl, rfl, rfl, rfl, fun _ => none, rfl, fun k => ⟨fun _ => rfl, fun v hv => by simp at hv⟩⟩

theorem frameOk_insert_cache {s0 s : State} (h : FrameOk s0 s) (a : Nat)
    (acc : Option Account) : FrameOk s0 (s.insert_cache a acc) := by
  obtain ⟨h1, h2, h3, h4, t, hsnap, hframe⟩ := h
  obtain ⟨strie, sroot, stroot, scache, ssnaps, sasn⟩ := s
  simp only [State.snapshots] at hsnap
  subst hsnap
  unfold State.insert_cache
  dsimp only at hframe ⊢
  cases ht : t a with
  | none =>
    refine ⟨h1, h2, h3, h4, _, rfl, fun k => ⟨?_, ?_⟩⟩
    · intro hk
      by_cases hka : k = a
      · subst hka; simp at hk
      · simp only [if_neg hka] at hk ⊢
        exact (hframe k).1 hk
    · intro v hv
      by_cases hka : k = a
      · subst hka
        simp only [if_pos rfl] at hv
        cases hv
        exact (hframe k).1 ht
      · simp only [if_neg hka] at hv ⊢
        exact (hframe k).2 v hv
  | some w =>
    refine ⟨h1, h2, h3, h4, t, rfl, fun k => ⟨?_, (hframe k).2⟩⟩
    intro hk
    by_cases hka : k = a
    · subst hka; rw [ht] at hk; cases hk
    · simp only [if_neg hka]
      exact (hframe k).1 hk

theorem frameOk_note_cache {s0 s : State} (h : FrameOk s0 s) (a : Nat) :
    FrameOk s0 (s.note_cache a) := by
  obtain ⟨h1, h2, h3, h4, t, hsnap, hframe⟩ := h
  obtain ⟨strie, sroot, stroot, scache, ssnaps, sasn⟩ := s
  simp only [State.snapshots] at hsnap
  subst hsnap
  unfold State.note_cache
  dsimp only at hframe ⊢
  cases ht : t a with
  | none =>
    refine ⟨h1, h2, h3, h4, _, rfl, fun k => ⟨?_, ?_⟩⟩
    · intro hk
      by_cases hka : k = a
      · subst hka; simp at hk
      · simp only [if_neg hka] at hk
        exact (hframe k).1 hk
    · intro v hv
      by_cases hka : k = a
      · subst hka
        simp only [if_pos rfl] at hv
        cases hv
        exact (hframe k).1 ht
      · simp only [if_neg hka] at hv
        exact (hframe k).2 v hv
  | some w =>
    exact ⟨h1, h2, h3, h4, t, rfl, hframe⟩

theorem topRecorded_insert_cache {s : State} {t rest} (hsnap : s.snapshots = t :: rest)
    (a : Nat) (acc : Option Account) : TopRecorded (s.insert_cache a acc) a := by
  obtain ⟨strie, sroot, stroot, scache, ssnaps, sasn⟩ := s
  simp only [State.snapshots] at hsnap
  subst hsnap
  unfold State.insert_cache
  dsimp only
  cases ht : t a with
  | none => exact ⟨_, _, rfl, by simp⟩
  | some w => exact ⟨t, rest, rfl, by simp [ht]⟩

theorem topRecorded_note_cache {s : State} {t rest} (hsnap : s.snapshots = t :: rest)
    (a : Nat) : TopRecorded (s.note_cache a) a := by
  obtain ⟨strie, sroot, stroot, scache, ssnaps, sasn⟩ := s
  simp only [State.snapshots] at hsnap
  subst hsnap
  unfold State.note_cache
  dsimp only
  cases ht : t a with
  | none => exact ⟨_, _, rfl, by simp⟩
  | some w => exact ⟨t, rest, rfl, by simp [ht]⟩

theorem frameOk_write {s0 s : State} (h : FrameOk s0 s) {a : Nat}
    (hrec : TopRecorded s a) (v : Option Account) :
    FrameOk s0 { s with cache := fun k => if k = a then some v else s.cache k } := by
  obtain ⟨h1, h2, h3, h4, t, hsnap, hframe⟩ := h
  obtain ⟨t', rest', hsnap', hta⟩ := hrec
  rw [hsnap] at hsnap'
  injection hsnap' with ht' _
  subst ht'
  refine ⟨h1, h2, h3, h4, t, hsnap, fun k => ⟨?_, (hframe k).2⟩⟩
  intro hk
  by_cases hka : k = a
  · subst hka; exact absurd hk hta
  · simp only [if_neg hka]
    exact (hframe k).1 hk

theorem frameOk_require_or_from {s0 s : State} (h : FrameOk s0 s) (a : Nat)
    (d : Account) (f : Account → Account) :
    FrameOk s0 (s.require_or_from a d f) := by
  obtain ⟨t, hsnap, -⟩ := h.2.2.2.2
  unfold State.require_or_from
  cases hc : s.cache a with
  | none =>
    exact frameOk_write (frameOk_insert_cache h a (s.trie a))
      (topRecorded_insert_cache hsnap a (s.trie a)) _
  | some w =>
    exact frameOk_write (frameOk_note_cache h a) (topRecorded_note_cache hsnap a) _

theorem frameOk_applyMutation {s0 s : State} (h : FrameOk s0 s) (m : Mutation) :
    FrameOk s0 (s.applyMutation m) := by
  have hins : ∀ s, FrameOk s0 s → ∀ a acc, FrameOk s0 (State.insert_cache s a acc) :=
    fun s h a acc => frameOk_insert_cache h a acc
  have hreq : ∀ s, FrameOk s0 s → ∀ a f, FrameOk s0 (State.require_upd s a f) :=
    fun s h a f => frameOk_require_or_from h a _ f
  cases m with
  | add_balance a v => exact hreq _ h _ _
  | sub_balance a v => exact hreq _ h _ _
  | transfer_balance f t v => exact hreq _ (hreq _ h _ _) _ _
  | inc_nonce a => exact hreq _ h _ _
  | set_storage a k v => exact hreq _ h _ _
  | new_contract a bal => exact hins _ h _ _
  | init_code a code => exact frameOk_require_or_from h _ _ _
  | kill_account a => exact hins _ h _ _

theorem frameOk_applyMutations {s0 s : State} (h : FrameOk s0 s) (ms : List Mutation) :
    FrameOk s0 (s.applyMutations ms) := by
  induction ms generalizing s with
  | nil => exact h
  | cons m rest ih => exact ih (frameOk_applyMutation h m)

theorem revert_of_frameOk {s0 s : State} (h : FrameOk s0 s) :
    s.revert_snapshot = s0 := by
  obtain ⟨h1, h2, h3, h4, t, hsnap, hframe⟩ := h
  obtain ⟨trie0, root0, troot0, cache0, snaps0, asn0⟩ := s0
  obtain ⟨strie, sroot, stroot, scache, ssnaps, sasn⟩ := s
  simp only [State.trie, State.root, State.trieRoot, State.cache, State.snapshots,
    State.account_start_nonce] at h1 h2 h3 h4 hsnap hframe
  subst hsnap h1 h2 h3 h4
  unfold State.revert_snapshot
  dsimp only
  congr 1
  funext k
  cases htk : t k with
  | none => exact (hframe k).1 htk
  | some w => exact (hframe k).2 w htk

/-- C1: any sequence of the account mutations (`add_balance`,
`sub_balance`, `transfer_balance`, `inc_nonce`, `set_storage`,
`new_contract`, `init_code`, `kill_account`) bracketed by `snapshot()`
and `revert_snapshot()` restores the state completely — trie, root,
cache and snapshot stack — hence every observable (balance, nonce,
storage, code, existence of every address) equals the state immediately
before `snapshot()`.  Since `s` may itself carry outer snapshot scopes,
this also shows that `revert_snapshot` undoes exactly the innermost
scope: every key recorded in the top scope returns to its prior cached
value and keys whose prior value was unrecorded in the cache are removed. -/
theorem claim_snapshot_revert (s : State) (ms : List Mutation) :
    ((s.snapshot).applyMutations ms).revert_snapshot = s :=
  revert_of_frameOk (frameOk_applyMutations (frameOk_snapshot s) ms)

/-- C9: for an address `a` present in the backing trie at the current
root, `kill_account(a)` followed by `exists(a)` before `commit()` returns
`true`, not `false`: `exists` falls back to a trie lookup whenever the
cache does not map `a` to a live account, even though the cache
explicitly records `a` as deleted (`Some(None)` entry); `exists` reports
`false` for the account only after `commit()` removes it from the trie.
The `snapshots = []` hypothesis mirrors the `assert!` guarding `commit`. -/
theorem claim_exists_after_kill (s : State) (a : Nat) (acc : Account)
    (hsnap : s.snapshots = []) (htrie : s.trie a = some acc) :
    (s.kill_account a).existsAccount a = true ∧
    ((s.kill_account a).commit).existsAccount a = false := by
  obtain ⟨strie, sroot, stroot, scache, ssnaps, sasn⟩ := s
  simp only [State.snapshots] at hsnap
  simp only [State.trie] at htrie
  subst hsnap
  unfold State.kill_account State.insert_cache State.commit State.existsAccount
  simp [htrie]

/-- A concrete account for the C9 witness. -/
def acct0 : Account := Account.new_basic 5 1

/-- A concrete state whose backing trie holds `acct0` at address 0 and
whose cache and snapshot stack are empty. -/
def stateWithAccount : State :=
  { trie := fun k => if k = 0 then some acct0 else none
  , root := 0
  , trieRoot := fun _ => 0
  , cache := fun _ => none
  , snapshots := []
  , account_start_nonce := 0 }

theorem claim_exists_after_kill_witness :
    (stateWithAccount.kill_account 0).existsAccount 0 = true ∧
    ((stateWithAccount.kill_account 0).commit).existsAccount 0 = false :=
  claim_exists_after_kill stateWithAccount 0 acct0 rfl rfl

/-- Modelled from the spec: `Header` (§3; the header type lives outside
src/): the 15 fixed fields followed by the engine-defined ordered seal
fields (opaque byte strings). -/
structure Header where
  parent_hash : Nat
  uncles_hash : Nat
  author : Nat
  state_root : Nat
  transactions_root : Nat
  receipts_root : Nat
  log_bloom : Nat
  difficulty : Nat
  number : Nat
  gas_limit : Nat
  gas_used : Nat
  timestamp : Nat
  extra_data : List Nat
  seal_list : List (List Nat)
deriving DecidableEq

/-- Modelled from the spec: `Header::set_seal` replaces the header's
seal fields (§4.3: `seal` "sets the header's seal fields"). -/
def Header.set_seal (h : Header) (sl : List (List Nat)) : Header :=
  { h with seal_list := sl }

/-- `SignedTransaction` (§3): nonce, gas-price, gas, optional `to`,
value, data; signature recovery and content hashing live outside src/
and are abstracted as the `sender` and `hash` fields. -/
structure SignedTransaction where
  nonce : Nat
  gas_price : Nat
  gas : Nat
  to_addr : Option Nat
  value : Nat
  data : List Nat
  sender : Nat
  hash : Nat
deriving DecidableEq

/-- `Receipt` (§3): post-transaction state root, cumulative gas used,
logs (log entries abstracted as opaque values). -/
structure Receipt where
  state_root : Nat
  gas_used : Nat
  logs : List Nat

/-- The Executive's successful outcome: cumulative gas used and logs. -/
structure Executed where
  cumulative_gas_used : Nat
  logs : List Nat

/-- `EnvInfo` (glossary): per-transaction execution context. -/
structure EnvInfo where
  number : Nat
  author : Nat
  timestamp : Nat
  difficulty : Nat
  last_hashes : List Nat
  gas_used : Nat
  gas_limit : Nat

/-- Modelled from the spec: the `Engine` capability surface used by the
block lifecycle (the trait lives outside src/): `verify_block_seal`
outcome (its error payload is discarded by `try_seal`, so a `Bool`
suffices), `seal_fields`, and the Executive capability of §9
(`{apply(env, engine, tx) → (gas, logs)}`), which per §4.1/§4.3 leaves
the state untouched when it fails, hence returns a new state only on
success. -/
structure Engine where
  verify_block_seal : Header → Bool
  seal_fields : Nat
  executive : EnvInfo → SignedTransaction → State → Except Nat (Executed × State)

/-- `State::apply` (state.rs lines 212-223): run the transaction through
the Executive; on success `commit()` and record a `Receipt` at the new
root; an Executive error propagates unchanged and (spec §4.1/§4.3) the
state is as the Executive left it, i.e. untouched.  Returned as
(result, state after the call). -/
def State.apply (s : State) (env : EnvInfo) (engine : Engine)
    (t : SignedTransaction) : Except Nat Receipt × State :=
  match engine.executive env t s with
  | .error e => (.error e, s)
  | .ok (ex, s1) =>
    let s2 := s1.commit
    (.ok { state_root := s2.root, gas_used := ex.cumulative_gas_used, logs := ex.logs }, s2)

/-- `ExecutedBlock` (block.rs lines 82-88), with `base` flattened. -/
structure ExecutedBlock where
  header : Header
  transactions : List SignedTransaction
  uncles : List Header
  receipts : List Receipt
  transactions_set : List Nat
  state : State

/-- `OpenBlock` (block.rs lines 149-153). -/
structure OpenBlock where
  block : ExecutedBlock
  engine : Engine
  last_hashes : List Nat

/-- `ClosedBlock` (block.rs lines 159-162). -/
structure ClosedBlock where
  block : ExecutedBlock
  uncle_bytes : List Nat

/-- `SealedBlock` (block.rs lines 167-170). -/
structure SealedBlock where
  block : ExecutedBlock
  uncle_bytes : List Nat

/-- `OpenBlock::env_info` (block.rs lines 233-244): cumulative gas used
so far is the last receipt's, or zero. -/
def OpenBlock.env_info (b : OpenBlock) : EnvInfo :=
  { number := b.block.header.number
  , author := b.block.header.author
  , timestamp := b.block.header.timestamp
  , difficulty := b.block.header.difficulty
  , last_hashes := b.last_hashes
  , gas_used := match b.block.receipts.getLast? with
      | some r => r.gas_used
      | none => 0
  , gas_limit := b.block.header.gas_limit }

/-- `OpenBlock::push_transaction` (block.rs lines 249-261): apply the
transaction; on success record `h` (or the transaction hash) in the
seen-set (`HashSet` insert modelled as append-if-absent), append the
transaction and the receipt; on failure return the error.  The pair's
second component is the block after the call (`&mut self`). -/
def OpenBlock.push_transaction (b : OpenBlock) (t : SignedTransaction)
    (h : Option Nat) : Except Nat Receipt × OpenBlock :=
  match b.block.state.apply b.env_info b.engine t with
  | (.ok receipt, s1) =>
    let hv := match h with
      | some hh => hh
      | none => t.hash
    (.ok receipt,
     { b with block :=
        { b.block with
          transactions_set :=
            if hv ∈ b.block.transactions_set then b.block.transactions_set
            else b.block.transactions_set ++ [hv]
        , transactions := b.block.transactions ++ [t]
        , receipts := b.block.receipts ++ [receipt]
        , state := s1 } })
  | (.error x, s1) =>
    (.error x, { b with block := { b.block with state := s1 } })

/-- `ClosedBlock::try_seal` (block.rs lines 310-317): the attempted seal
is written into the header FIRST; then the engine verifies the header;
on rejection the (seal-carrying) Closed block is the `Err` payload. -/
def ClosedBlock.try_seal (b : ClosedBlock) (engine : Engine)
    (sl : List (List Nat)) : Except ClosedBlock SealedBlock :=
  let b1 : ClosedBlock :=
    { b with block := { b.block with header := b.block.header.set_seal sl } }
  match engine.verify_block_seal b1.block.header with
  | false => .error b1
  | true => .ok { block := b1.block, uncle_bytes := b1.uncle_bytes }

/-- C3: if `State::apply` returns an execution error, `push_transaction`
returns that error unchanged and does not mutate the block: the
transaction list, receipt list, seen-hash set and the block's `State`
are all exactly as before the call. -/
theorem claim_push_transaction_error (b : OpenBlock) (t : SignedTransaction)
    (h : Option Nat) (e : Nat)
    (happly : (b.block.state.apply b.env_info b.engine t).1 = .error e) :
    b.push_transaction t h = (.error e, b) := by
  unfold OpenBlock.push_transaction
  unfold State.apply at happly ⊢
  cases hex : b.engine.executive b.env_info t b.block.state with
  | error e2 =>
    rw [hex] at happly
    simp only at happly
    cases happly
    rfl
  | ok pair =>
    rw [hex] at happly
    simp at happly

/-- A concrete empty state for the block-lifecycle witnesses. -/
def emptyState : State :=
  { trie := fun _ => none
  , root := 0
  , trieRoot := fun _ => 0
  , cache := fun _ => none
  , snapshots := []
  , account_start_nonce := 0 }

/-- A concrete header with no seal fields. -/
def header0 : Header :=
  { parent_hash := 0, uncles_hash := 0, author := 0, state_root := 0
  , transactions_root := 0, receipts_root := 0, log_bloom := 0
  , difficulty := 0, number := 1, gas_limit := 0, gas_used := 0
  , timestamp := 0, extra_data := [], seal_list := [] }

/-- An engine that rejects every seal and whose Executive always fails
with error code 7. -/
def failEngine : Engine :=
  { verify_block_seal := fun _ => false
  , seal_fields := 0
  , executive := fun _ _ _ => .error 7 }

/-- A concrete transaction. -/
def tx0 : SignedTransaction :=
  { nonce := 0, gas_price := 1, gas := 21000, to_addr := none, value := 0
  , data := [], sender := 1, hash := 100 }

/-- A concrete open block over `failEngine`. -/
def openBlock0 : OpenBlock :=
  { block := { header := header0, transactions := [], uncles := []
             , receipts := [], transactions_set := [], state := emptyState }
  , engine := failEngine
  , last_hashes := [] }

theorem claim_push_transaction_error_witness :
    openBlock0.push_transaction tx0 none = (.error 7, openBlock0) :=
  claim_push_transaction_error openBlock0 tx0 none 7 rfl

/-- A concrete closed block whose header carries no seal. -/
def closedBlock0 : ClosedBlock :=
  { block := { header := header0, transactions := [], uncles := []
             , receipts := [], transactions_set := [], state := emptyState }
  , uncle_bytes := [] }

/-- C2 counterexample: with an engine that rejects every seal, sealing
`closedBlock0` (whose header has no seal fields) with the one-element
seal vector `[[1]]` returns an `Err` Closed block whose header's seal
fields are `[[1]]`, NOT the original `[]`: the block is not returned
unchanged in every field. -/
theorem claim_try_seal_counterexample :
    closedBlock0.try_seal failEngine [[1]] =
      .error { closedBlock0 with block :=
        { closedBlock0.block with header := closedBlock0.block.header.set_seal [[1]] } } ∧
    (closedBlock0.block.header.set_seal [[1]]).seal_list ≠ closedBlock0.block.header.seal_list :=
  ⟨rfl, by decide⟩

/-- C2 amended: `try_seal` writes the attempted seal into the header
before verifying; if `engine.verify_block_seal` rejects the resulting
header, the Closed block is returned to the caller equal to `b` in every
field EXCEPT the header's seal fields, which now hold the attempted
seal. -/
theorem claim_try_seal_rejected (b : ClosedBlock) (engine : Engine)
    (sl : List (List Nat))
    (hrej : engine.verify_block_seal (b.block.header.set_seal sl) = false) :
    b.try_seal engine sl =
      .error { b with block := { b.block with header := b.block.header.set_seal sl } } := by
  unfold ClosedBlock.try_seal
  simp only [hrej]

theorem claim_try_seal_rejected_witness :
    closedBlock0.try_seal failEngine [[1]] =
      .error { closedBlock0 with block :=
        { closedBlock0.block with header := closedBlock0.block.header.set_seal [[1]] } } :=
  claim_try_seal_rejected closedBlock0 failEngine [[1]] rfl

/-- Structural decode errors (§7). -/
inductive DecoderError where
  | RlpIsTooBig
  | RlpIncorrectListLen
  | RlpFieldError
deriving DecidableEq

/-- The decoded form of a block (block.rs lines 29-36). -/
structure Block where
  header : Header
  transactions : List SignedTransaction
  uncles : List Header

/-- Modelled from the spec: the RLP decoder interface consumed by
`impl Decodable for Block` (the rlp library lives outside src/).  For a
given byte string this records the raw slice length, the outcome of
`payload_info()` (total declared payload size), the top-level
`item_count()`, and the three field decodes `val_at(0)..val_at(2)`. -/
structure BlockRlpDecoder where
  rawLen : Nat
  payloadInfo : Except DecoderError Nat
  itemCount : Nat
  headerField : Except DecoderError Header
  transactionsField : Except DecoderError (List SignedTransaction)
  unclesField : Except DecoderError (List Header)

/-- `impl Decodable for Block` (block.rs lines 61-76): reject when the
raw length differs from the declared payload total (`RlpIsTooBig`), then
when the top-level list has an item count other than 3
(`RlpIncorrectListLen`), then decode the three fields. -/
def Block.decode (d : BlockRlpDecoder) : Except DecoderError Block :=
  match d.payloadInfo with
  | .error e => .error e
  | .ok total =>
    if d.rawLen ≠ total then .error .RlpIsTooBig
    else if d.itemCount ≠ 3 then .error .RlpIncorrectListLen
    else
      match d.headerField with
      | .error e => .error e
      | .ok hd =>
        match d.transactionsField with
        | .error e => .error e
        | .ok txs =>
          match d.unclesField with
          | .error e => .error e
          | .ok us => .ok { header := hd, transactions := txs, uncles := us }

/-- C8: block decoding never yields a `Block` when the top-level item
count differs from 3 or when the input carries trailing bytes beyond the
declared RLP payload; trailing bytes yield `RlpIsTooBig` (that check
runs first), and an item count other than 3 on a length-consistent input
yields `RlpIncorrectListLen`. -/
theorem claim_block_decode_rejects (d : BlockRlpDecoder) (total : Nat)
    (hpi : d.payloadInfo = .ok total) :
    (total < d.rawLen → Block.decode d = .error .RlpIsTooBig) ∧
    (d.rawLen = total → d.itemCount ≠ 3 → Block.decode d = .error .RlpIncorrectListLen) ∧
    (d.itemCount ≠ 3 ∨ d.rawLen ≠ total → ∀ b, Block.decode d ≠ .ok b) := by
  refine ⟨?_, ?_, ?_⟩
  · intro hlt
    have hne : d.rawLen ≠ total := by omega
    simp [Block.decode, hpi, hne]
  · intro heq hcount
    simp [Block.decode, hpi, heq, hcount]
  · intro hbad b
    by_cases hlen : d.rawLen = total
    · have hcount : d.itemCount ≠ 3 := hbad.resolve_right (fun h2 => h2 hlen)
      simp [Block.decode, hpi, hlen, hcount]
    · simp [Block.decode, hpi, hlen]

/-- A concrete decoder view with one trailing byte and item count 2. -/
def rlpDemo : BlockRlpDecoder :=
  { rawLen := 10, payloadInfo := .ok 9, itemCount := 2
  , headerField := .error .RlpFieldError
  , transactionsField := .ok [], unclesField := .ok [] }

theorem claim_block_decode_rejects_witness :
    (9 < rlpDemo.rawLen → Block.decode rlpDemo = .error .RlpIsTooBig) ∧
    (rlpDemo.rawLen = 9 → rlpDemo.itemCount ≠ 3 → Block.decode rlpDemo = .error .RlpIncorrectListLen) ∧
    (rlpDemo.itemCount ≠ 3 ∨ rlpDemo.rawLen ≠ 9 → ∀ b, Block.decode rlpDemo ≠ .ok b) :=
  claim_block_decode_rejects rlpDemo 9 rfl

/-- `TransactionOrder` (transaction_queue.rs lines 93-103). -/
structure TransactionOrder where
  nonce_height : Nat
  gas_price : Nat
  hash : Nat
deriving DecidableEq

/-- `TransactionOrder::for_transaction` (transaction_queue.rs lines
106-112); the U256 subtraction is guarded at every call site by
`nonce ≥ base_nonce`, matching `Nat` truncation. -/
def TransactionOrder.for_transaction (tx : SignedTransaction)
    (base_nonce : Nat) : TransactionOrder :=
  { nonce_height := tx.nonce - base_nonce, gas_price := tx.gas_price, hash := tx.hash }

/-- `TransactionOrder::update_height` (transaction_queue.rs lines 114-117). -/
def TransactionOrder.update_height (o : TransactionOrder)
    (nonce base_nonce : Nat) : TransactionOrder :=
  { o with nonce_height := nonce - base_nonce }

/-- `impl Ord for TransactionOrder` (transaction_queue.rs lines
131-148): ascending `nonce_height`, then DESCENDING `gas_price`
(`b_gas.cmp(&a_gas)`), then ascending `hash`. -/
def TransactionOrder.cmp (a b : TransactionOrder) : Ordering :=
  if a.nonce_height ≠ b.nonce_height then compare a.nonce_height b.nonce_height
  else if a.gas_price ≠ b.gas_price then compare b.gas_price a.gas_price
  else compare a.hash b.hash

theorem TransactionOrder.cmp_eq_iff {a b : TransactionOrder} :
    a.cmp b = Ordering.eq ↔ a = b := by
  obtain ⟨n1, g1, h1⟩ := a
  obtain ⟨n2, g2, h2⟩ := b
  unfold TransactionOrder.cmp
  dsimp only
  by_cases hn : n1 = n2
  · subst hn
    rw [if_neg (fun hc => hc rfl)]
    by_cases hg : g1 = g2
    · subst hg
      rw [if_neg (fun hc => hc rfl), Nat.compare_eq_eq]
      simp
    · rw [if_pos hg, TransactionOrder.mk.injEq]
      constructor
      · intro hcmp
        exact absurd (Nat.compare_eq_eq.mp hcmp).symm hg
      · rintro ⟨-, hgg, -⟩
        exact absurd hgg hg
  · rw [if_pos hn, TransactionOrder.mk.injEq]
    constructor
    · intro hcmp
      exact absurd (Nat.compare_eq_eq.mp hcmp) hn
    · rintro ⟨hnn, -⟩
      exact absurd hnn hn

/-- `BTreeSet<TransactionOrder>` insertion over the list kept sorted in
ascending `cmp` order; inserting an element already present leaves the
set unchanged. -/
def bpInsert (o : TransactionOrder) : List TransactionOrder → List TransactionOrder
  | [] => [o]
  | x :: xs =>
    match o.cmp x with
    | .lt => o :: x :: xs
    | .eq => x :: xs
    | .gt => x :: bpInsert o xs

theorem mem_bpInsert {x o : TransactionOrder} {l : List TransactionOrder} :
    x ∈ bpInsert o l ↔ x = o ∨ x ∈ l := by
  induction l with
  | nil => simp [bpInsert]
  | cons y ys ih =>
    unfold bpInsert
    cases h : o.cmp y with
    | lt => simp [List.mem_cons]
    | eq =>
      have he : o = y := TransactionOrder.cmp_eq_iff.mp h
      subst he
      simp [List.mem_cons]
    | gt =>
      simp only [List.mem_cons, ih]
      tauto

theorem nodup_bpInsert {o : TransactionOrder} {l : List TransactionOrder}
    (ho : o ∉ l) (hl : l.Nodup) : (bpInsert o l).Nodup := by
  induction l with
  | nil => simp [bpInsert]
  | cons y ys ih =>
    unfold bpInsert
    cases h : o.cmp y with
    | lt =>
      exact List.nodup_cons.mpr ⟨ho, hl⟩
    | eq =>
      have he : o = y := TransactionOrder.cmp_eq_iff.mp h
      exact absurd (he ▸ List.mem_cons_self y ys) ho
    | gt =>
      have hoy : o ∉ ys := fun hm => ho (List.mem_cons_of_mem y hm)
      have hyn : y ∉ ys := (List.nodup_cons.mp hl).1
      refine List.nodup_cons.mpr ⟨?_, ih hoy (List.nodup_cons.mp hl).2⟩
      intro hy
      rcases mem_bpInsert.mp hy with h1 | h1
      · exact ho (h1 ▸ List.mem_cons_self y ys)
      · exact hyn h1

theorem erase_bpInsert {o : TransactionOrder} {l : List TransactionOrder}
    (ho : o ∉ l) : (bpInsert o l).erase o = l := by
  induction l with
  | nil => simp [bpInsert]
  | cons y ys ih =>
    unfold bpInsert
    cases h : o.cmp y with
    | lt =>
      have : (o :: y :: ys).erase o = y :: ys := List.erase_cons_head o (y :: ys)
      rw [this]
    | eq =>
      have he : o = y := TransactionOrder.cmp_eq_iff.mp h
      exact absurd (he ▸ List.mem_cons_self y ys) ho
    | gt =>
      have hoy : o ∉ ys := fun hm => ho (List.mem_cons_of_mem y hm)
      have hyo : y ≠ o := fun he => ho (he ▸ List.mem_cons_self y ys)
      rw [List.erase_cons, if_neg (by simp [hyo]), ih hoy]

/-- `HashMap`/`Table` lookup over an association list. -/
def alGet {κ β : Type} [DecidableEq κ] (k : κ) : List (κ × β) → Option β
  | [] => none
  | (k2, v) :: rest => if k2 = k then some v else alGet k rest

theorem alGet_cons_self {κ β : Type} [DecidableEq κ] (k : κ) (v : β)
    (rest : List (κ × β)) : alGet k ((k, v) :: rest) = some v := by
  unfold alGet
  rw [if_pos rfl]

theorem alGet_cons_ne {κ β : Type} [DecidableEq κ] {k k2 : κ} (v : β)
    (rest : List (κ × β)) (h : k2 ≠ k) : alGet k ((k2, v) :: rest) = alGet k rest := by
  show (if k2 = k then some v else alGet k rest) = alGet k rest
  rw [if_neg h]

/-- `HashMap::insert`: replace in place when the key is present,
otherwise append; returns (new map, previous value). -/
def alInsert {κ β : Type} [DecidableEq κ] (k : κ) (v : β) :
    List (κ × β) → List (κ × β) × Option β
  | [] => ([(k, v)], none)
  | (k2, v2) :: rest =>
    if k2 = k then ((k, v) :: rest, some v2)
    else
      let r := alInsert k v rest
      ((k2, v2) :: r.1, r.2)

theorem alInsert_cons_self {κ β : Type} [DecidableEq κ] (k : κ) (v v2 : β)
    (rest : List (κ × β)) :
    alInsert k v ((k, v2) :: rest) = ((k, v) :: rest, some v2) := by
  show (if k = k then ((k, v) :: rest, some v2) else _) = _
  rw [if_pos rfl]

theorem alInsert_cons_ne {κ β : Type} [DecidableEq κ] {k k2 : κ} (v v2 : β)
    (rest : List (κ × β)) (h : k2 ≠ k) :
    alInsert k v ((k2, v2) :: rest) =
      ((k2, v2) :: (alInsert k v rest).1, (alInsert k v rest).2) := by
  show (if k2 = k then ((k, v) :: rest, some v2) else _) = _
  rw [if_neg h]

/-- `HashMap::remove`: drop the entry for the key, returning
(new map, removed value). -/
def alRemove {κ β : Type} [DecidableEq κ] (k : κ) :
    List (κ × β) → List (κ × β) × Option β
  | [] => ([], none)
  | (k2, v2) :: rest =>
    if k2 = k then (rest, some v2)
    else
      let r := alRemove k rest
      ((k2, v2) :: r.1, r.2)

theorem alGet_eq_none_iff {κ β : Type} [DecidableEq κ] (k : κ) (m : List (κ × β)) :
    alGet k m = none ↔ ∀ p ∈ m, p.1 ≠ k := by
  induction m with
  | nil => simp [alGet]
  | cons p rest ih =>
    obtain ⟨k2, v⟩ := p
    unfold alGet
    by_cases hk : k2 = k
    · simp [hk]
    · simp [hk, ih]

theorem alGet_mem {κ β : Type} [DecidableEq κ] {k : κ} {v : β} {m : List (κ × β)}
    (h : alGet k m = some v) : (k, v) ∈ m := by
  induction m with
  | nil => simp [alGet] at h
  | cons p rest ih =>
    obtain ⟨k2, v2⟩ := p
    unfold alGet at h
    by_cases hk : k2 = k
    · rw [if_pos hk] at h
      cases h
      exact hk ▸ List.mem_cons_self _ _
    · rw [if_neg hk] at h
      exact List.mem_cons_of_mem _ (ih h)

theorem alRemove_snd {κ β : Type} [DecidableEq κ] (k : κ) (m : List (κ × β)) :
    (alRemove k m).2 = alGet k m := by
  induction m with
  | nil => rfl
  | cons p rest ih =>
    obtain ⟨k2, v2⟩ := p
    unfold alRemove alGet
    by_cases hk : k2 = k
    · simp [hk]
    · simp [hk, ih]

theorem alRemove_length {κ β : Type} [DecidableEq κ] {k : κ} {m : List (κ × β)} {v : β}
    (h : alGet k m = some v) : (alRemove k m).1.length + 1 = m.length := by
  induction m with
  | nil => simp [alGet] at h
  | cons p rest ih =>
    obtain ⟨k2, v2⟩ := p
    unfold alGet at h
    unfold alRemove
    by_cases hk : k2 = k
    · simp [hk]
    · rw [if_neg hk] at h
      simp only [if_neg hk, List.length_cons]
      rw [← ih h]

theorem alGet_alRemove_ne {κ β : Type} [DecidableEq κ] {k k2 : κ} (m : List (κ × β))
    (h : k2 ≠ k) : alGet k2 (alRemove k m).1 = alGet k2 m := by
  induction m with
  | nil => rfl
  | cons p rest ih =>
    obtain ⟨k3, v3⟩ := p
    unfold alRemove
    by_cases hk : k3 = k
    · simp only [if_pos hk]
      rw [alGet_cons_ne _ _ (fun hc => h (hc.symm.trans hk))]
    · simp only [if_neg hk]
      by_cases hk2 : k3 = k2
      · subst hk2
        rw [alGet_cons_self, alGet_cons_self]
      · rw [alGet_cons_ne _ _ hk2, alGet_cons_ne _ _ hk2, ih]

theorem alGet_alRemove_self {κ β : Type} [DecidableEq κ] {k : κ} {m : List (κ × β)}
    (h : (m.map Prod.fst).Nodup) : alGet k (alRemove k m).1 = none := by
  induction m with
  | nil => rfl
  | cons p rest ih =>
    obtain ⟨k2, v2⟩ := p
    simp only [List.map_cons, List.nodup_cons] at h
    unfold alRemove
    by_cases hk : k2 = k
    · simp only [if_pos hk]
      rw [alGet_eq_none_iff]
      intro q hq hqk
      exact h.1 (hk ▸ hqk ▸ List.mem_map_of_mem Prod.fst hq)
    · simp only [if_neg hk]
      unfold alGet
      rw [if_neg hk]
      exact ih h.2

theorem alRemove_keys_sublist {κ β : Type} [DecidableEq κ] (k : κ) (m : List (κ × β)) :
    ((alRemove k m).1.map Prod.fst).Sublist (m.map Prod.fst) := by
  induction m with
  | nil => simp [alRemove]
  | cons p rest ih =>
    obtain ⟨k2, v2⟩ := p
    unfold alRemove
    by_cases hk : k2 = k
    · simp only [if_pos hk, List.map_cons]
      exact (List.sublist_cons_self _ _)
    · simp only [if_neg hk, List.map_cons]
      exact ih.cons₂ k2

theorem alInsert_fst_of_none {κ β : Type} [DecidableEq κ] {k : κ} {m : List (κ × β)}
    (h : alGet k m = none) (v : β) : (alInsert k v m).1 = m ++ [(k, v)] := by
  induction m with
  | nil => rfl
  | cons p rest ih =>
    obtain ⟨k2, v2⟩ := p
    unfold alGet at h
    unfold alInsert
    by_cases hk : k2 = k
    · rw [if_pos hk] at h
      cases h
    · rw [if_neg hk] at h
      simp only [if_neg hk, List.cons_append, List.cons.injEq, true_and]
      exact ih h

theorem alGet_alInsert_self {κ β : Type} [DecidableEq κ] (k : κ) (v : β)
    (m : List (κ × β)) : alGet k (alInsert k v m).1 = some v := by
  induction m with
  | nil => simp [alInsert, alGet]
  | cons p rest ih =>
    obtain ⟨k2, v2⟩ := p
    unfold alInsert
    by_cases hk : k2 = k
    · simp only [if_pos hk]
      rw [alGet_cons_self]
    · simp only [if_neg hk]
      rw [alGet_cons_ne _ _ hk]
      exact ih

theorem alGet_alInsert_ne {κ β : Type} [DecidableEq κ] {k k2 : κ} (v : β)
    (m : List (κ × β)) (h : k2 ≠ k) : alGet k2 (alInsert k v m).1 = alGet k2 m := by
  induction m with
  | nil =>
    show alGet k2 [(k, v)] = alGet k2 []
    rw [alGet_cons_ne _ _ (Ne.symm h)]
  | cons p rest ih =>
    obtain ⟨k3, v3⟩ := p
    unfold alInsert
    by_cases hk : k3 = k
    · simp only [if_pos hk]
      rw [alGet_cons_ne _ _ (Ne.symm h), alGet_cons_ne _ _ (fun hc => h (hc.symm.trans hk))]
    · simp only [if_neg hk]
      by_cases hk2 : k3 = k2
      · subst hk2
        rw [alGet_cons_self, alGet_cons_self]
      · rw [alGet_cons_ne _ _ hk2, alGet_cons_ne _ _ hk2, ih]

theorem alRemove_append_self {κ β : Type} [DecidableEq κ] {k : κ} {m : List (κ × β)}
    (h : alGet k m = none) (v : β) : (alRemove k (m ++ [(k, v)])).1 = m := by
  induction m with
  | nil => simp [alRemove]
  | cons p rest ih =>
    obtain ⟨k2, v2⟩ := p
    unfold alGet at h
    by_cases hk : k2 = k
    · rw [if_pos hk] at h
      cases h
    · rw [if_neg hk] at h
      simp only [List.cons_append]
      unfold alRemove
      simp only [if_neg hk, List.cons.injEq, true_and]
      exact ih h

theorem alInsert_restore {κ β : Type} [DecidableEq κ] {k : κ} {m : List (κ × β)} {v : β}
    (h : alGet k m = some v) (u : β) : (alInsert k v (alInsert k u m).1).1 = m := by
  induction m with
  | nil => simp [alGet] at h
  | cons p rest ih =>
    obtain ⟨k2, v2⟩ := p
    by_cases hk : k2 = k
    · subst hk
      rw [alGet_cons_self] at h
      cases h
      simp [alInsert_cons_self]
    · rw [alGet_cons_ne _ _ hk] at h
      simp only [alInsert_cons_ne _ _ _ hk]
      exact congrArg (List.cons (k2, v2)) (ih h)

theorem alGet_append {κ β : Type} [DecidableEq κ] (k : κ) (m m2 : List (κ × β)) :
    alGet k (m ++ m2) =
      match alGet k m with
      | some v => some v
      | none => alGet k m2 := by
  induction m with
  | nil => rfl
  | cons p rest ih =>
    obtain ⟨k2, v2⟩ := p
    simp only [List.cons_append]
    by_cases hk : k2 = k
    · subst hk
      rw [alGet_cons_self, alGet_cons_self]
    · rw [alGet_cons_ne _ _ hk, alGet_cons_ne _ _ hk, ih]

/-- The queue's hash index `by_hash : HashMap<H256, VerifiedTransaction>`
(a `VerifiedTransaction` is the signed transaction with its recovered
sender, which the embedding's `SignedTransaction` already carries). -/
abbrev ByHash := List (Nat × SignedTransaction)

/-- `TransactionSet` (transaction_queue.rs lines 180-184); `by_address`
is the `Table<Address, U256, TransactionOrder>` flattened to
(sender, nonce) keys. -/
structure TransactionSet where
  by_priority : List TransactionOrder
  by_address : List ((Nat × Nat) × TransactionOrder)
  limit : Nat

/-- `TransactionSet::insert` (transaction_queue.rs lines 188-191):
insert into both indexes, returning `by_address`'s previous order. -/
def TransactionSet.insertTS (s : TransactionSet) (sender nonce : Nat)
    (order : TransactionOrder) : TransactionSet × Option TransactionOrder :=
  let r := alInsert (sender, nonce) order s.by_address
  ({ s with by_priority := bpInsert order s.by_priority, by_address := r.1 }, r.2)

/-- `TransactionSet::drop` (transaction_queue.rs lines 218-224): remove
the `by_address` entry and, when found, its order from `by_priority`. -/
def TransactionSet.dropTS (s : TransactionSet) (sender nonce : Nat) :
    TransactionSet × Option TransactionOrder :=
  match alRemove (sender, nonce) s.by_address with
  | (ba, some o) =>
    ({ s with by_address := ba, by_priority := s.by_priority.erase o }, some o)
  | (_, none) => (s, none)

/-- One iteration of the `enforce_limit` drop loop (transaction_queue.rs
lines 211-214): drop the (sender, nonce) from the set and, when an order
was found, remove its hash from `by_hash`. -/
def enforceStep (acc : TransactionSet × ByHash) (kn : Nat × Nat) :
    TransactionSet × ByHash :=
  match acc.1.dropTS kn.1 kn.2 with
  | (s2, some o) => (s2, (alRemove o.hash acc.2).1)
  | (s2, none) => (s2, acc.2)

/-- `TransactionSet::enforce_limit` (transaction_queue.rs lines
196-215): when over the limit, look the over-limit suffix of the
priority order up in `by_hash`, then drop each (sender, nonce) from the
set and its hash from `by_hash`.  The source `expect`s every lookup
("Inconsistency in queue detected"); a missing entry is modelled as a
skip and is unreachable under the queue's consistency invariants. -/
def TransactionSet.enforce_limit (s : TransactionSet) (by_hash : ByHash) :
    TransactionSet × ByHash :=
  if s.by_priority.length ≤ s.limit then (s, by_hash)
  else
    let to_drop : List (Nat × Nat) :=
      (s.by_priority.drop s.limit).filterMap
        (fun o => (alGet o.hash by_hash).map (fun tx => (tx.sender, tx.nonce)))
    to_drop.foldl enforceStep (s, by_hash)

/-- `TransactionQueue` (transaction_queue.rs lines 245-254). -/
structure TransactionQueue where
  current : TransactionSet
  future : TransactionSet
  by_hash : ByHash
  last_nonces : List (Nat × Nat)

/-- `TransactionQueue::with_limits` (transaction_queue.rs lines 263-281). -/
def TransactionQueue.with_limits (current_limit future_limit : Nat) : TransactionQueue :=
  { current := { by_priority := [], by_address := [], limit := current_limit }
  , future := { by_priority := [], by_address := [], limit := future_limit }
  , by_hash := []
  , last_nonces := [] }

/-- `TransactionQueue::new` (transaction_queue.rs lines 258-260). -/
def TransactionQueue.newQ : TransactionQueue :=
  TransactionQueue.with_limits 1024 1024

/-- `TransactionQueue::top_transactions` (transaction_queue.rs lines
403-410): walk `current` in priority order, dereference through
`by_hash` (an `expect` in the source, modelled as `filterMap`). -/
def TransactionQueue.top_transactions (q : TransactionQueue) (size : Nat) :
    List SignedTransaction :=
  (q.current.by_priority.take size).filterMap (fun t => alGet t.hash q.by_hash)

/-- `TransactionQueue::replace_transaction` (transaction_queue.rs lines
493-516): insert the transaction and its order; if (sender, nonce)
already had an order, keep the one with the strictly greater gas price
(ties go to the NEW transaction), removing the loser from `by_priority`,
`by_address` and `by_hash`. -/
def replace_transaction (tx : SignedTransaction) (base_nonce : Nat)
    (set : TransactionSet) (by_hash : ByHash) : TransactionSet × ByHash :=
  let order := TransactionOrder.for_transaction tx base_nonce
  let hash := tx.hash
  let address := tx.sender
  let nonce := tx.nonce
  let by_hash1 := (alInsert hash tx by_hash).1
  let r := set.insertTS address nonce order
  match r.2 with
  | some old =>
    if old.gas_price > order.gas_price then
      ({ r.1 with by_address := (alInsert (address, nonce) old r.1.by_address).1,
                  by_priority := r.1.by_priority.erase order },
       (alRemove hash by_hash1).1)
    else
      ({ r.1 with by_priority := r.1.by_priority.erase old },
       (alRemove old.hash by_hash1).1)
  | none => (r.1, by_hash1)

/-- The while-loop of `move_matching_future_to_current`
(transaction_queue.rs lines 429-436), with explicit fuel.  Each
iteration removes one `future.by_address` entry, so any fuel of at least
`future.by_address.length + 1` makes the recursion identical to the
unbounded source loop. -/
def moveLoop (address first_nonce : Nat) :
    Nat → Nat → TransactionSet → TransactionSet →
    TransactionSet × TransactionSet × Nat
  | 0, current_nonce, fut, cur => (fut, cur, current_nonce)
  | fuel + 1, current_nonce, fut, cur =>
    match alRemove (address, current_nonce) fut.by_address with
    | (ba, some order) =>
      let fut2 : TransactionSet :=
        { fut with by_address := ba, by_priority := fut.by_priority.erase order }
      let cur2 :=
        (cur.insertTS address current_nonce
          (order.update_height current_nonce first_nonce)).1
      moveLoop address first_nonce fuel (current_nonce + 1) fut2 cur2
    | (_, none) => (fut, cur, current_nonce)

/-- `TransactionQueue::move_matching_future_to_current`
(transaction_queue.rs lines 422-441): return unchanged when the sender
has no `future` entries (the source tests `row_mut(&address)` for
`None`); otherwise promote the contiguous chain starting at
`current_nonce` into `current` and set
`last_nonces[address] = final_nonce - 1`. -/
def TransactionQueue.move_matching_future_to_current (q : TransactionQueue)
    (address current_nonce first_nonce : Nat) : TransactionQueue :=
  if q.future.by_address.any (fun p => p.1.1 = address) then
    let r := moveLoop address first_nonce (q.future.by_address.length + 1)
      current_nonce q.future q.current
    { q with future := r.1, current := r.2.1,
             last_nonces := (alInsert address (r.2.2 - 1) q.last_nonces).1 }
  else q

/-- `TransactionQueue::import_tx` (transaction_queue.rs lines 451-487):
drop an already-tracked hash; compute `state_nonce` and `next_nonce`; a
nonce above `next_nonce` goes to `future` (then `future` is capped); a
nonce below `state_nonce` is dropped; otherwise insert into `current`,
record `last_nonces`, promote the contiguous `future` chain from
`nonce + 1`, and cap `current`. -/
def TransactionQueue.import_tx (q : TransactionQueue) (tx : SignedTransaction)
    (fetch_nonce : Nat → Nat) : TransactionQueue :=
  if (alGet tx.hash q.by_hash).isSome then q
  else
    let address := tx.sender
    let nonce := tx.nonce
    let state_nonce := fetch_nonce address
    let next_nonce := match alGet address q.last_nonces with
      | some n => n + 1
      | none => state_nonce
    if next_nonce < nonce then
      let r := replace_transaction tx next_nonce q.future q.by_hash
      let r2 := r.1.enforce_limit r.2
      { q with future := r2.1, by_hash := r2.2 }
    else if nonce < state_nonce then q
    else
      let base_nonce := fetch_nonce address
      let r := replace_transaction tx base_nonce q.current q.by_hash
      let q1 : TransactionQueue :=
        { q with current := r.1, by_hash := r.2,
                 last_nonces := (alInsert address nonce q.last_nonces).1 }
      let q2 := q1.move_matching_future_to_current address (nonce + 1) base_nonce
      let r3 := q2.current.enforce_limit q2.by_hash
      { q2 with current := r3.1, by_hash := r3.2 }

/-- C4: dispatch of `add`/`import_tx` for a signature-valid transaction
whose hash is not yet tracked.  With `state_nonce = fetch_nonce sender`
and `next_nonce = last_nonces[sender] + 1` when present, else
`state_nonce`: a nonce above `next_nonce` is inserted into `future`
through `replace_transaction` (base `next_nonce`) and `future`'s
capacity is then enforced, `current` and `last_nonces` untouched; a
nonce below `state_nonce` is dropped with the queue completely
unchanged; otherwise the transaction is inserted into `current` (base
`state_nonce`), `last_nonces[sender]` is set to `tx.nonce`, the
contiguous `future` chain starting at `tx.nonce + 1` is promoted by
`move_matching_future_to_current`, and `current`'s capacity is
enforced. -/
theorem claim_import_tx_dispatch (q : TransactionQueue) (tx : SignedTransaction)
    (fetch_nonce : Nat → Nat) (state_nonce next_nonce : Nat)
    (hnew : alGet tx.hash q.by_hash = none)
    (hsn : state_nonce = fetch_nonce tx.sender)
    (hnn : next_nonce = (match alGet tx.sender q.last_nonces with
      | some n => n + 1
      | none => state_nonce)) :
    (next_nonce < tx.nonce →
      q.import_tx tx fetch_nonce =
        (let r := replace_transaction tx next_nonce q.future q.by_hash
         let r2 := r.1.enforce_limit r.2
         { q with future := r2.1, by_hash := r2.2 })) ∧
    (tx.nonce ≤ next_nonce → tx.nonce < state_nonce →
      q.import_tx tx fetch_nonce = q) ∧
    (tx.nonce ≤ next_nonce → state_nonce ≤ tx.nonce →
      q.import_tx tx fetch_nonce =
        (let r := replace_transaction tx state_nonce q.current q.by_hash
         let q1 : TransactionQueue :=
           { q with current := r.1, by_hash := r.2,
                    last_nonces := (alInsert tx.sender tx.nonce q.last_nonces).1 }
         let q2 := q1.move_matching_future_to_current tx.sender (tx.nonce + 1) state_nonce
         let r3 := q2.current.enforce_limit q2.by_hash
         { q2 with current := r3.1, by_hash := r3.2 })) := by
  subst hsn hnn
  unfold TransactionQueue.import_tx
  rw [hnew]
  simp only [Option.isSome_none, Bool.false_eq_true, if_false]
  refine ⟨?_, ?_, ?_⟩
  · intro hlt
    rw [if_pos hlt]
  · intro hle hlt
    rw [if_neg (by omega), if_pos hlt]
  · intro hle hge
    rw [if_neg (by omega), if_neg (by omega)]

theorem claim_import_tx_dispatch_witness :
    (0 < tx0.nonce →
      TransactionQueue.newQ.import_tx tx0 (fun _ => 0) =
        (let r := replace_transaction tx0 0 TransactionQueue.newQ.future TransactionQueue.newQ.by_hash
         let r2 := r.1.enforce_limit r.2
         { TransactionQueue.newQ with future := r2.1, by_hash := r2.2 })) ∧
    (tx0.nonce ≤ 0 → tx0.nonce < 0 →
      TransactionQueue.newQ.import_tx tx0 (fun _ => 0) = TransactionQueue.newQ) ∧
    (tx0.nonce ≤ 0 → 0 ≤ tx0.nonce →
      TransactionQueue.newQ.import_tx tx0 (fun _ => 0) =
        (let r := replace_transaction tx0 0 TransactionQueue.newQ.current TransactionQueue.newQ.by_hash
         let q1 : TransactionQueue :=
           { TransactionQueue.newQ with
               current := r.1, by_hash := r.2,
               last_nonces := (alInsert tx0.sender tx0.nonce TransactionQueue.newQ.last_nonces).1 }
         let q2 := q1.move_matching_future_to_current tx0.sender (tx0.nonce + 1) 0
         let r3 := q2.current.enforce_limit q2.by_hash
         { q2 with current := r3.1, by_hash := r3.2 })) :=
  claim_import_tx_dispatch TransactionQueue.newQ tx0 (fun _ => 0) 0 0 rfl rfl rfl

theorem filterMap_hash_eq {H : ByHash} (hwf : ∀ p ∈ H, (p.2).hash = p.1) :
    ∀ (l : List TransactionOrder), (∀ o ∈ l, (alGet o.hash H).isSome) →
      (l.filterMap (fun t => alGet t.hash H)).map SignedTransaction.hash
        = l.map TransactionOrder.hash := by
  intro l
  induction l with
  | nil => simp
  | cons o rest ih =>
    intro hall
    have ho := hall o (List.mem_cons_self o rest)
    cases hx : alGet o.hash H with
    | none => rw [hx] at ho; simp at ho
    | some tx =>
      have htx : tx.hash = o.hash := hwf (o.hash, tx) (alGet_mem hx)
      simp only [List.filterMap_cons, hx, List.map_cons, htx]
      rw [ih (fun o2 h2 => hall o2 (List.mem_cons_of_mem _ h2))]

/-- C5: `top_transactions(k)` returns at most `k` transactions, through
`by_hash`, in the order of `current.by_priority`: the returned
transactions' hashes are exactly those of the first `≤ k` elements of
the priority list, which is monotone nondecreasing under the
`TransactionOrder` ordering; and that ordering is precisely: lower
`nonce_height` first, on tie HIGHER `gas_price` first, on tie lower
`hash` first.  The sortedness hypothesis is the `BTreeSet`
representation invariant of `by_priority`; the lookup hypotheses are the
hash-index consistency that the source `expect`s. -/
theorem claim_top_transactions_order (q : TransactionQueue) (k : Nat)
    (hs : List.Chain' (fun a b => a.cmp b ≠ Ordering.gt) q.current.by_priority)
    (hall : ∀ o ∈ q.current.by_priority, (alGet o.hash q.by_hash).isSome)
    (hwf : ∀ p ∈ q.by_hash, (p.2).hash = p.1) :
    (q.top_transactions k).length ≤ k ∧
    List.Chain' (fun a b => a.cmp b ≠ Ordering.gt) (q.current.by_priority.take k) ∧
    (q.top_transactions k).map SignedTransaction.hash =
      (q.current.by_priority.take k).map TransactionOrder.hash ∧
    (∀ a b : TransactionOrder, a.cmp b = Ordering.lt ↔
      (a.nonce_height < b.nonce_height ∨
       (a.nonce_height = b.nonce_height ∧ b.gas_price < a.gas_price) ∨
       (a.nonce_height = b.nonce_height ∧ a.gas_price = b.gas_price ∧ a.hash < b.hash))) := by
  refine ⟨?_, hs.take k, ?_, ?_⟩
  · calc (q.top_transactions k).length
        ≤ (q.current.by_priority.take k).length := List.length_filterMap_le _ _
      _ ≤ k := List.length_take_le _ _
  · exact filterMap_hash_eq hwf _ (fun o ho => hall o (List.mem_of_mem_take ho))
  · intro a b
    obtain ⟨n1, g1, h1⟩ := a
    obtain ⟨n2, g2, h2⟩ := b
    unfold TransactionOrder.cmp
    dsimp only
    by_cases hn : n1 = n2
    · subst hn
      rw [if_neg (fun hc => hc rfl)]
      by_cases hg : g1 = g2
      · subst hg
        rw [if_neg (fun hc => hc rfl), Nat.compare_eq_lt]
        constructor
        · intro h
          exact Or.inr (Or.inr ⟨rfl, rfl, h⟩)
        · rintro (h | ⟨-, h⟩ | ⟨-, -, h⟩)
          · omega
          · omega
          · exact h
      · rw [if_pos hg, Nat.compare_eq_lt]
        constructor
        · intro h
          exact Or.inr (Or.inl ⟨rfl, h⟩)
        · rintro (h | ⟨-, h⟩ | ⟨-, hgg, -⟩)
          · omega
          · exact h
          · exact absurd hgg hg
    · rw [if_pos hn, Nat.compare_eq_lt]
      constructor
      · intro h
        exact Or.inl h
      · rintro (h | ⟨hnn, -⟩ | ⟨hnn, -⟩)
        · exact h
        · exact absurd hnn hn
        · exact absurd hnn hn

/-- Two concrete orders sorted by the `TransactionOrder` ordering. -/
def ordA : TransactionOrder := { nonce_height := 0, gas_price := 2, hash := 11 }

/-- Second concrete order (higher nonce height, hence after `ordA`). -/
def ordB : TransactionOrder := { nonce_height := 1, gas_price := 1, hash := 12 }

/-- A concrete transaction matching `ordA`. -/
def txA : SignedTransaction :=
  { nonce := 5, gas_price := 2, gas := 0, to_addr := none, value := 0
  , data := [], sender := 1, hash := 11 }

/-- A concrete transaction matching `ordB`. -/
def txB : SignedTransaction :=
  { nonce := 6, gas_price := 1, gas := 0, to_addr := none, value := 0
  , data := [], sender := 1, hash := 12 }

/-- A concrete consistent queue holding `txA` and `txB` in `current`. -/
def qDemo : TransactionQueue :=
  { current := { by_priority := [ordA, ordB]
               , by_address := [((1, 5), ordA), ((1, 6), ordB)]
               , limit := 10 }
  , future := { by_priority := [], by_address := [], limit := 10 }
  , by_hash := [(11, txA), (12, txB)]
  , last_nonces := [(1, 6)] }

theorem claim_top_transactions_order_witness :
    (qDemo.top_transactions 2).length ≤ 2 ∧
    List.Chain' (fun a b => a.cmp b ≠ Ordering.gt) (qDemo.current.by_priority.take 2) ∧
    (qDemo.top_transactions 2).map SignedTransaction.hash =
      (qDemo.current.by_priority.take 2).map TransactionOrder.hash ∧
    (∀ a b : TransactionOrder, a.cmp b = Ordering.lt ↔
      (a.nonce_height < b.nonce_height ∨
       (a.nonce_height = b.nonce_height ∧ b.gas_price < a.gas_price) ∨
       (a.nonce_height = b.nonce_height ∧ a.gas_price = b.gas_price ∧ a.hash < b.hash))) :=
  claim_top_transactions_order qDemo 2 (List.chain'_pair.mpr (by decide)) (by decide) (by decide)

theorem alInsert_snd {κ β : Type} [DecidableEq κ] (k : κ) (v : β) (m : List (κ × β)) :
    (alInsert k v m).2 = alGet k m := by
  induction m with
  | nil => rfl
  | cons p rest ih =>
    obtain ⟨k2, v2⟩ := p
    unfold alInsert alGet
    by_cases hk : k2 = k
    · simp [hk]
    · simp [hk, ih]

theorem not_mem_keys_of_alGet_none {κ β : Type} [DecidableEq κ] {k : κ}
    {m : List (κ × β)} (h : alGet k m = none) : k ∉ m.map Prod.fst := by
  intro hk
  obtain ⟨p, hp, hfst⟩ := List.mem_map.mp hk
  exact (alGet_eq_none_iff k m).mp h p hp hfst

theorem insert_keys_nodup {H : ByHash} (tx : SignedTransaction)
    (hnewh : alGet tx.hash H = none) (hHnd : (H.map Prod.fst).Nodup) :
    (((alInsert tx.hash tx H).1).map Prod.fst).Nodup := by
  rw [alInsert_fst_of_none hnewh, List.map_append]
  refine List.Nodup.append hHnd (by simp) ?_
  simp only [List.map_cons, List.map_nil, List.disjoint_singleton]
  exact not_mem_keys_of_alGet_none hnewh

/-- In `replace_transaction`, when the existing order has the strictly
greater gas price, the call restores the set and the hash index exactly:
the new transaction is removed from `by_priority`, from `by_address`
(the old order is re-inserted over it) and from `by_hash`. -/
theorem replace_keep_old (tx : SignedTransaction) (base : Nat)
    (set : TransactionSet) (H : ByHash) (old : TransactionOrder)
    (hold : alGet (tx.sender, tx.nonce) set.by_address = some old)
    (hnewh : alGet tx.hash H = none)
    (hfresh : ∀ o ∈ set.by_priority, o.hash ≠ tx.hash)
    (hgt : tx.gas_price < old.gas_price) :
    replace_transaction tx base set H = (set, H) := by
  have hnotmem : TransactionOrder.for_transaction tx base ∉ set.by_priority :=
    fun hm => hfresh _ hm rfl
  unfold replace_transaction TransactionSet.insertTS
  dsimp only
  rw [alInsert_snd, hold]
  dsimp only
  rw [if_pos (show old.gas_price > (TransactionOrder.for_transaction tx base).gas_price from hgt),
    alInsert_restore hold, erase_bpInsert hnotmem,
    alInsert_fst_of_none hnewh, alRemove_append_self hnewh]

/-- In `replace_transaction`, when the existing order's gas price is NOT
strictly greater (lower or tied), the new transaction wins: the old
order is removed from `by_priority`, the (sender, nonce) cell now holds
the new order, the old hash is removed from `by_hash`, and the new
transaction is tracked. -/
theorem replace_keep_new (tx : SignedTransaction) (base : Nat)
    (set : TransactionSet) (H : ByHash) (old : TransactionOrder)
    (hold : alGet (tx.sender, tx.nonce) set.by_address = some old)
    (hmem : old ∈ set.by_priority)
    (hnd : set.by_priority.Nodup)
    (hnewh : alGet tx.hash H = none)
    (hfresh : ∀ o ∈ set.by_priority, o.hash ≠ tx.hash)
    (hHnd : (H.map Prod.fst).Nodup)
    (hle : old.gas_price ≤ tx.gas_price) :
    old ∉ (replace_transaction tx base set H).1.by_priority ∧
    TransactionOrder.for_transaction tx base ∈ (replace_transaction tx base set H).1.by_priority ∧
    alGet (tx.sender, tx.nonce) (replace_transaction tx base set H).1.by_address =
      some (TransactionOrder.for_transaction tx base) ∧
    alGet old.hash (replace_transaction tx base set H).2 = none ∧
    alGet tx.hash (replace_transaction tx base set H).2 = some tx := by
  have hnotmem : TransactionOrder.for_transaction tx base ∉ set.by_priority :=
    fun hm => hfresh _ hm rfl
  have holdne : old.hash ≠ tx.hash := hfresh old hmem
  have hashfor : (TransactionOrder.for_transaction tx base).hash = tx.hash := rfl
  have hordne : TransactionOrder.for_transaction tx base ≠ old := by
    intro he
    rw [he] at hashfor
    exact holdne hashfor
  have hre : replace_transaction tx base set H =
      ({ by_priority :=
           (bpInsert (TransactionOrder.for_transaction tx base) set.by_priority).erase old
       , by_address :=
           (alInsert (tx.sender, tx.nonce) (TransactionOrder.for_transaction tx base)
             set.by_address).1
       , limit := set.limit }
      , (alRemove old.hash (alInsert tx.hash tx H).1).1) := by
    unfold replace_transaction TransactionSet.insertTS
    dsimp only
    rw [alInsert_snd, hold]
    dsimp only
    rw [if_neg (show ¬old.gas_price > (TransactionOrder.for_transaction tx base).gas_price
      from not_lt.mpr hle)]
  rw [hre]
  refine ⟨?_, ?_, ?_, ?_, ?_⟩
  · intro hm
    exact (((nodup_bpInsert hnotmem hnd).mem_erase_iff.mp hm).1) rfl
  · exact (List.mem_erase_of_ne hordne).mpr (mem_bpInsert.mpr (Or.inl rfl))
  · exact alGet_alInsert_self _ _ _
  · exact alGet_alRemove_self (insert_keys_nodup tx hnewh hHnd)
  · rw [alGet_alRemove_ne _ (Ne.symm holdne), alInsert_fst_of_none hnewh, alGet_append, hnewh]
    exact alGet_cons_self _ _ _

/-- C6: replacement rule of `replace_transaction`: when (sender, nonce)
already has an order in the target set, the transaction with the
strictly higher gas price is kept, and the loser is removed from both
the set's indexes (`by_priority`, `by_address`) and the queue's
`by_hash` map.  When the OLD order wins, set and hash map come back
exactly as they were (the new transaction leaves no trace anywhere);
when the NEW transaction wins, the old order is gone from `by_priority`,
the (sender, nonce) cell holds the new order, the old hash is gone from
`by_hash` and the new one is tracked.  The hypotheses are the queue's
consistency invariants at the call site (fresh untracked hash,
`by_address` cell matching, nodup indexes). -/
theorem claim_replace_by_gas_price (tx : SignedTransaction) (base : Nat)
    (set : TransactionSet) (H : ByHash) (old : TransactionOrder)
    (hold : alGet (tx.sender, tx.nonce) set.by_address = some old)
    (hmem : old ∈ set.by_priority)
    (hnd : set.by_priority.Nodup)
    (hnewh : alGet tx.hash H = none)
    (hfresh : ∀ o ∈ set.by_priority, o.hash ≠ tx.hash)
    (hHnd : (H.map Prod.fst).Nodup) :
    (tx.gas_price < old.gas_price →
      replace_transaction tx base set H = (set, H)) ∧
    (old.gas_price < tx.gas_price →
      old ∉ (replace_transaction tx base set H).1.by_priority ∧
      TransactionOrder.for_transaction tx base ∈ (replace_transaction tx base set H).1.by_priority ∧
      alGet (tx.sender, tx.nonce) (replace_transaction tx base set H).1.by_address =
        some (TransactionOrder.for_transaction tx base) ∧
      alGet old.hash (replace_transaction tx base set H).2 = none ∧
      alGet tx.hash (replace_transaction tx base set H).2 = some tx) :=
  ⟨fun h => replace_keep_old tx base set H old hold hnewh hfresh h,
   fun h => replace_keep_new tx base set H old hold hmem hnd hnewh hfresh hHnd (le_of_lt h)⟩

/-- C10: on a gas-price TIE (`old.gas_price = tx.gas_price`) the NEW
transaction wins the replacement — the source keeps the old order only
when its fee is STRICTLY greater (`Ordering::Greater`): the old order is
removed from `by_priority`, the (sender, nonce) cell holds the new
order, the old hash is removed from `by_hash` and the new transaction is
tracked. -/
theorem claim_replace_tie_new_wins (tx : SignedTransaction) (base : Nat)
    (set : TransactionSet) (H : ByHash) (old : TransactionOrder)
    (hold : alGet (tx.sender, tx.nonce) set.by_address = some old)
    (hmem : old ∈ set.by_priority)
    (hnd : set.by_priority.Nodup)
    (hnewh : alGet tx.hash H = none)
    (hfresh : ∀ o ∈ set.by_priority, o.hash ≠ tx.hash)
    (hHnd : (H.map Prod.fst).Nodup)
    (heq : old.gas_price = tx.gas_price) :
    old ∉ (replace_transaction tx base set H).1.by_priority ∧
    TransactionOrder.for_transaction tx base ∈ (replace_transaction tx base set H).1.by_priority ∧
    alGet (tx.sender, tx.nonce) (replace_transaction tx base set H).1.by_address =
      some (TransactionOrder.for_transaction tx base) ∧
    alGet old.hash (replace_transaction tx base set H).2 = none ∧
    alGet tx.hash (replace_transaction tx base set H).2 = some tx :=
  replace_keep_new tx base set H old hold hmem hnd hnewh hfresh hHnd (le_of_eq heq)

/-- A concrete nonce-5 order for the replacement witnesses. -/
def oldO : TransactionOrder := { nonce_height := 0, gas_price := 2, hash := 11 }

/-- A concrete set holding only `oldO` at (sender 1, nonce 5). -/
def setC6 : TransactionSet :=
  { by_priority := [oldO], by_address := [((1, 5), oldO)], limit := 10 }

/-- A fresh transaction contending for (1, 5) with gas price 7. -/
def txNew : SignedTransaction :=
  { nonce := 5, gas_price := 7, gas := 0, to_addr := none, value := 0
  , data := [], sender := 1, hash := 20 }

/-- A fresh transaction contending for (1, 5) with the tied gas price 2. -/
def txTie : SignedTransaction :=
  { nonce := 5, gas_price := 2, gas := 0, to_addr := none, value := 0
  , data := [], sender := 1, hash := 21 }

theorem claim_replace_by_gas_price_witness :
    (txNew.gas_price < oldO.gas_price →
      replace_transaction txNew 5 setC6 [(11, txA)] = (setC6, [(11, txA)])) ∧
    (oldO.gas_price < txNew.gas_price →
      oldO ∉ (replace_transaction txNew 5 setC6 [(11, txA)]).1.by_priority ∧
      TransactionOrder.for_transaction txNew 5 ∈
        (replace_transaction txNew 5 setC6 [(11, txA)]).1.by_priority ∧
      alGet (txNew.sender, txNew.nonce)
        (replace_transaction txNew 5 setC6 [(11, txA)]).1.by_address =
        some (TransactionOrder.for_transaction txNew 5) ∧
      alGet oldO.hash (replace_transaction txNew 5 setC6 [(11, txA)]).2 = none ∧
      alGet txNew.hash (replace_transaction txNew 5 setC6 [(11, txA)]).2 = some txNew) :=
  claim_replace_by_gas_price txNew 5 setC6 [(11, txA)] oldO rfl
    (List.mem_cons_self _ _) (by decide) rfl (by decide) (by decide)

theorem claim_replace_tie_new_wins_witness :
    oldO ∉ (replace_transaction txTie 5 setC6 [(11, txA)]).1.by_priority ∧
    TransactionOrder.for_transaction txTie 5 ∈
      (replace_transaction txTie 5 setC6 [(11, txA)]).1.by_priority ∧
    alGet (txTie.sender, txTie.nonce)
      (replace_transaction txTie 5 setC6 [(11, txA)]).1.by_address =
      some (TransactionOrder.for_transaction txTie 5) ∧
    alGet oldO.hash (replace_transaction txTie 5 setC6 [(11, txA)]).2 = none ∧
    alGet txTie.hash (replace_transaction txTie 5 setC6 [(11, txA)]).2 = some txTie :=
  claim_replace_tie_new_wins txTie 5 setC6 [(11, txA)] oldO rfl
    (List.mem_cons_self _ _) (by decide) rfl (by decide) (by decide) rfl

/-- The drop loop of `enforce_limit`, specified: folding `enforceStep`
over the keys of a pair list `ps` whose orders form the tail of
`by_priority` beyond a prefix `A` erases exactly those orders from
`by_priority`, removes exactly one `by_address` entry per pair, keeps
the limit, and removes exactly the pairs' hashes from `by_hash`. -/
theorem enforce_fold (ps : List ((Nat × Nat) × TransactionOrder)) :
    ∀ (A : List TransactionOrder) (S : TransactionSet) (H : ByHash),
    S.by_priority = A ++ ps.map Prod.snd →
    S.by_priority.Nodup →
    (∀ p ∈ ps, alGet p.1 S.by_address = some p.2) →
    (ps.map Prod.fst).Nodup →
    (S.by_address.map Prod.fst).Nodup →
    (H.map Prod.fst).Nodup →
    ((ps.map fun p => p.2.hash).Nodup) →
    ((ps.map Prod.fst).foldl enforceStep (S, H)).1.by_priority = A ∧
    ((ps.map Prod.fst).foldl enforceStep (S, H)).1.by_address.length + ps.length
       = S.by_address.length ∧
    ((ps.map Prod.fst).foldl enforceStep (S, H)).1.limit = S.limit ∧
    (∀ h, alGet h ((ps.map Prod.fst).foldl enforceStep (S, H)).2 =
      if h ∈ (ps.map fun p => p.2.hash) then none else alGet h H) := by
  induction ps with
  | nil =>
    intro A S H hsplit hnd hget hkeysN hbaN hHN hhashN
    simp only [List.map_nil, List.foldl_nil]
    refine ⟨?_, ?_, ?_, ?_⟩
    · rw [hsplit]
      simp
    · simp
    · trivial
    · intro h
      simp
  | cons hd tl ih =>
    obtain ⟨⟨sender, nonce⟩, o⟩ := hd
    intro A S H hsplit hnd hget hkeysN hbaN hHN hhashN
    simp only [List.map_cons] at hsplit hkeysN hhashN
    simp only [List.map_cons, List.foldl_cons]
    have hgethd : alGet (sender, nonce) S.by_address = some o :=
      hget _ (List.mem_cons_self _ _)
    have h2 : (alRemove (sender, nonce) S.by_address).2 = some o := by
      rw [alRemove_snd]
      exact hgethd
    have hdrop : S.dropTS sender nonce =
        ({ S with by_address := (alRemove (sender, nonce) S.by_address).1,
                  by_priority := S.by_priority.erase o }, some o) := by
      unfold TransactionSet.dropTS
      rcases halr : alRemove (sender, nonce) S.by_address with ⟨ba, oo⟩
      rw [halr] at h2
      have hoo : oo = some o := h2
      subst hoo
      rfl
    have hstep : enforceStep (S, H) (sender, nonce) =
        ({ S with by_address := (alRemove (sender, nonce) S.by_address).1,
                  by_priority := S.by_priority.erase o },
         (alRemove o.hash H).1) := by
      unfold enforceStep
      rw [show ((S, H) : TransactionSet × ByHash).1.dropTS (sender, nonce).1 (sender, nonce).2
          = S.dropTS sender nonce from rfl, hdrop]
    rw [hstep]
    have hoA : o ∉ A := by
      intro hmem
      have hdisj := (List.nodup_append.mp (hsplit ▸ hnd)).2.2
      exact hdisj hmem (List.mem_cons_self _ _)
    have hpris : S.by_priority.erase o = A ++ tl.map Prod.snd := by
      rw [hsplit, List.erase_append_right _ hoA, List.erase_cons_head]
    have hsub : (A ++ tl.map Prod.snd).Sublist (A ++ o :: tl.map Prod.snd) :=
      List.Sublist.append_left (List.sublist_cons_self o _) A
    have hnd1 : (S.by_priority.erase o).Nodup := by
      rw [hpris]
      exact List.Nodup.sublist hsub (hsplit ▸ hnd)
    have hknotin : (sender, nonce) ∉ tl.map Prod.fst := (List.nodup_cons.mp hkeysN).1
    have hget' : ∀ p ∈ tl, alGet p.1 (alRemove (sender, nonce) S.by_address).1 = some p.2 := by
      intro p hp
      have hne : p.1 ≠ (sender, nonce) := by
        intro he
        exact hknotin (he ▸ List.mem_map_of_mem Prod.fst hp)
      rw [alGet_alRemove_ne _ hne]
      exact hget p (List.mem_cons_of_mem _ hp)
    have hout := ih A
      { S with by_address := (alRemove (sender, nonce) S.by_address).1,
               by_priority := S.by_priority.erase o }
      ((alRemove o.hash H).1)
      hpris hnd1 hget'
      (List.nodup_cons.mp hkeysN).2
      (List.Nodup.sublist (alRemove_keys_sublist _ _) hbaN)
      (List.Nodup.sublist (alRemove_keys_sublist _ _) hHN)
      (List.nodup_cons.mp hhashN).2
    obtain ⟨c1, c2, c3, c4⟩ := hout
    have hlen1 : (alRemove (sender, nonce) S.by_address).1.length + 1
        = S.by_address.length := alRemove_length hgethd
    refine ⟨c1, ?_, c3, ?_⟩
    · have c2' : ((tl.map Prod.fst).foldl enforceStep
          ({ S with by_address := (alRemove (sender, nonce) S.by_address).1,
                    by_priority := S.by_priority.erase o },
           (alRemove o.hash H).1)).1.by_address.length + tl.length
          = (alRemove (sender, nonce) S.by_address).1.length := c2
      simp only [List.length_cons]
      omega
    · intro h
      rw [c4 h]
      by_cases hin : h ∈ tl.map fun p => p.2.hash
      · rw [if_pos hin, if_pos (List.mem_cons_of_mem _ hin)]
      · rw [if_neg hin]
        by_cases hh : h = o.hash
        · subst hh
          rw [alGet_alRemove_self hHN, if_pos (List.mem_cons_self _ _)]
        · rw [alGet_alRemove_ne _ hh,
            if_neg (by simp only [List.mem_cons]; exact fun hc => hc.elim hh hin)]

/-- The (sender, nonce) key under which an order's transaction is filed,
read back through `by_hash` (total stand-in for the source's `expect`ed
lookup; the `(0, 0)` default is unreachable under the link invariant). -/
def keyOf (H : ByHash) (o : TransactionOrder) : Nat × Nat :=
  match alGet o.hash H with
  | some tx => (tx.sender, tx.nonce)
  | none => (0, 0)

theorem filterMap_keyOf (H : ByHash) :
    ∀ (l : List TransactionOrder), (∀ o ∈ l, (alGet o.hash H).isSome) →
    l.filterMap (fun o => (alGet o.hash H).map (fun tx => (tx.sender, tx.nonce))) =
      l.map (keyOf H) := by
  intro l
  induction l with
  | nil => simp
  | cons o rest ih =>
    intro hall
    have ho := hall o (List.mem_cons_self _ _)
    cases hx : alGet o.hash H with
    | none =>
      rw [hx] at ho
      simp at ho
    | some tx =>
      simp only [List.filterMap_cons, hx, Option.map_some', List.map_cons]
      rw [ih (fun o2 h2 => hall o2 (List.mem_cons_of_mem _ h2))]
      congr 1
      unfold keyOf
      rw [hx]

/-- C7: `enforce_limit` postconditions under the queue's consistency
invariants (every priority entry resolves through `by_hash` to a tracked
transaction whose (sender, nonce) cell holds that same order; hashes and
keys are duplicate-free; the two set indexes have equal size): the
surviving priority order is exactly the first `limit` entries — so the
dropped entries are precisely the lowest-priority suffix of the sorted
order and `|by_priority| ≤ limit`; `|by_address| = |by_priority|` still
holds afterwards (the indexes never disagree); and `by_hash` loses
exactly the hashes of the dropped suffix, so it still references exactly
the remaining transactions of the union of the sets. -/
theorem claim_enforce_limit_caps (S : TransactionSet) (H : ByHash)
    (hlink : ∀ o ∈ S.by_priority,
      ((alGet o.hash H).bind (fun tx => alGet (tx.sender, tx.nonce) S.by_address)) = some o)
    (hhashN : (S.by_priority.map TransactionOrder.hash).Nodup)
    (hbaN : (S.by_address.map Prod.fst).Nodup)
    (hHN : (H.map Prod.fst).Nodup)
    (hlen : S.by_address.length = S.by_priority.length) :
    (S.enforce_limit H).1.by_priority = S.by_priority.take S.limit ∧
    (S.enforce_limit H).1.by_priority.length ≤ S.limit ∧
    (S.enforce_limit H).1.by_address.length = (S.enforce_limit H).1.by_priority.length ∧
    ∀ h, alGet h (S.enforce_limit H).2 =
      if h ∈ (S.by_priority.drop S.limit).map TransactionOrder.hash then none
      else alGet h H := by
  have hkey : ∀ o ∈ S.by_priority,
      (alGet o.hash H).isSome ∧ alGet (keyOf H o) S.by_address = some o := by
    intro o ho
    have hb := hlink o ho
    cases hx : alGet o.hash H with
    | none =>
      rw [hx] at hb
      simp at hb
    | some tx =>
      rw [hx] at hb
      have h3 : alGet (tx.sender, tx.nonce) S.by_address = some o := hb
      refine ⟨rfl, ?_⟩
      unfold keyOf
      rw [hx]
      exact h3
  by_cases hc : S.by_priority.length ≤ S.limit
  · have hE : S.enforce_limit H = (S, H) := by
      unfold TransactionSet.enforce_limit
      rw [if_pos hc]
    have hdropnil : S.by_priority.drop S.limit = [] := List.drop_eq_nil_of_le hc
    rw [hE]
    refine ⟨(List.take_of_length_le hc).symm, hc, hlen, ?_⟩
    intro h
    rw [hdropnil]
    simp
  · push_neg at hc
    have hDall : ∀ o ∈ S.by_priority.drop S.limit, (alGet o.hash H).isSome :=
      fun o ho => (hkey o ((List.drop_sublist _ _).subset ho)).1
    have hfst : ((S.by_priority.drop S.limit).map
        (fun o => (keyOf H o, o))).map Prod.fst
        = (S.by_priority.drop S.limit).map (keyOf H) := by
      rw [List.map_map]
      rfl
    have hsnd : ((S.by_priority.drop S.limit).map
        (fun o => (keyOf H o, o))).map Prod.snd = S.by_priority.drop S.limit := by
      rw [List.map_map]
      exact List.map_id _
    have hhash : ((S.by_priority.drop S.limit).map (fun o => (keyOf H o, o))).map
        (fun p => p.2.hash) = (S.by_priority.drop S.limit).map TransactionOrder.hash := by
      rw [List.map_map]
      rfl
    have hE : S.enforce_limit H =
        (((S.by_priority.drop S.limit).map (fun o => (keyOf H o, o))).map Prod.fst).foldl
          enforceStep (S, H) := by
      unfold TransactionSet.enforce_limit
      rw [if_neg (not_le.mpr hc)]
      show ((S.by_priority.drop S.limit).filterMap
        (fun o => (alGet o.hash H).map (fun tx => (tx.sender, tx.nonce)))).foldl
          enforceStep (S, H) = _
      rw [filterMap_keyOf H _ hDall, hfst]
    have hnd : S.by_priority.Nodup := List.Nodup.of_map _ hhashN
    have hDnd : (S.by_priority.drop S.limit).Nodup :=
      List.Nodup.sublist (List.drop_sublist _ _) hnd
    have hsplit : S.by_priority = S.by_priority.take S.limit ++
        ((S.by_priority.drop S.limit).map (fun o => (keyOf H o, o))).map Prod.snd := by
      rw [hsnd, List.take_append_drop]
    have hget : ∀ p ∈ (S.by_priority.drop S.limit).map (fun o => (keyOf H o, o)),
        alGet p.1 S.by_address = some p.2 := by
      intro p hp
      obtain ⟨o, ho, rfl⟩ := List.mem_map.mp hp
      exact (hkey o ((List.drop_sublist _ _).subset ho)).2
    have hkeysN : (((S.by_priority.drop S.limit).map
        (fun o => (keyOf H o, o))).map Prod.fst).Nodup := by
      rw [hfst]
      refine List.Nodup.map_on ?_ hDnd
      intro x hx y hy hxy
      have h1 := (hkey x ((List.drop_sublist _ _).subset hx)).2
      have h2 := (hkey y ((List.drop_sublist _ _).subset hy)).2
      rw [hxy] at h1
      rw [h2] at h1
      exact (Option.some.injEq _ _ ▸ h1).symm
    have hhashN2 : (((S.by_priority.drop S.limit).map (fun o => (keyOf H o, o))).map
        (fun p => p.2.hash)).Nodup := by
      rw [hhash]
      exact List.Nodup.sublist ((List.drop_sublist _ _).map _) hhashN
    obtain ⟨c1, c2, c3, c4⟩ := enforce_fold
      ((S.by_priority.drop S.limit).map (fun o => (keyOf H o, o)))
      (S.by_priority.take S.limit) S H hsplit hnd hget hkeysN hbaN hHN hhashN2
    rw [hE]
    refine ⟨c1, ?_, ?_, ?_⟩
    · rw [c1]
      exact List.length_take_le _ _
    · rw [c1]
      rw [List.length_map, List.length_drop] at c2
      rw [List.length_take]
      omega
    · intro h
      rw [c4 h, hhash]

/-- A concrete consistent set over its limit of 1 (holds `ordA`, `ordB`). -/
def setOver : TransactionSet :=
  { by_priority := [ordA, ordB]
  , by_address := [((1, 5), ordA), ((1, 6), ordB)]
  , limit := 1 }

/-- The matching hash index for `setOver`. -/
def hashOver : ByHash := [(11, txA), (12, txB)]

theorem claim_enforce_limit_caps_witness :
    (setOver.enforce_limit hashOver).1.by_priority = setOver.by_priority.take setOver.limit ∧
    (setOver.enforce_limit hashOver).1.by_priority.length ≤ setOver.limit ∧
    (setOver.enforce_limit hashOver).1.by_address.length =
      (setOver.enforce_limit hashOver).1.by_priority.length ∧
    ∀ h, alGet h (setOver.enforce_limit hashOver).2 =
      if h ∈ (setOver.by_priority.drop setOver.limit).map TransactionOrder.hash then none
      else alGet h hashOver :=
  claim_enforce_limit_caps setOver hashOver (by decide) (by decide) (by decide)
    (by decide) (by decide)

end Parity
